import Mathlib

/-!
Verification of the defradb commit-DAG versioning and replication core.

This file shallowly embeds the Go sources of the repository:
  * `datastore/txn.go` — the transaction wrapper with success/error hook lists,
  * the integration-test helper `withRetry`,
  * the peer RPC schema `net/pb/net.proto`,
  * the MerkleClock head-set operations, the scalar LWW register and the
    PushLog receiver (modelled from the spec where their Go code is not part
    of the provided sources),
  * the explain-graph trimming helpers from `tests/integration/explain.go`
    (with an explicit heap so that Go map mutation is observable).
-/

namespace DefraDB

/-! ## Errors

`GoErr` models the Go `error` values relevant to the embedded code.
`txnConflict` is `badgerds.ErrTxnConflict`; `stale` models the "transaction
has gone stale" error mentioned in the `Txn.Commit` documentation; `other`
covers every remaining distinct error value. -/

inductive GoErr where
  | txnConflict
  | stale
  | other (code : Nat)
deriving DecidableEq, Repr

/-! ## The underlying key-value store and `ds.Txn`

The generic transactional key-value store is an external collaborator
(`github.com/ipfs/go-datastore`), consumed as an interface.  It is embedded
here by its contract as documented on `Txn.Commit` and `Txn.Discard` in
`datastore/txn.go`: an error from `Commit` indicates the data was not
committed; `Discard` throws away recorded changes without committing them,
and calls to `Discard` after a successful `Commit` have no effect. -/

/-- The global datastore contents: an association list of key/value pairs. -/
structure KV where
  entries : List (String × String)
deriving DecidableEq, Repr

/-- Writing one key into the datastore (last write shadows earlier ones). -/
def KV.put (g : KV) (k v : String) : KV :=
  ⟨(k, v) :: g.entries⟩

/-- Applying a batch of staged writes in order. -/
def KV.putAll (g : KV) (staged : List (String × String)) : KV :=
  staged.foldl (fun acc kv => acc.put kv.1 kv.2) g

/-- Status of an underlying `ds.Txn`. -/
inductive TxnStatus where
  | active
  | committed
  | discarded
deriving DecidableEq, Repr

/-- Model of the external `ds.Txn`: a buffer of staged writes plus a status. -/
structure DsTxn where
  staged : List (String × String)
  status : TxnStatus
deriving DecidableEq, Repr

/-- Model of the external store's `Commit`, per the contract documented in
`datastore/txn.go`: on success all staged writes become durable atomically;
the presence of an error is an indication that the data was not committed.
`ok` abstracts the store's accept/reject decision (e.g. conflict detection);
committing a transaction that already reached a terminal action fails as
stale. -/
def DsTxn.commit (ok : Bool) (g : KV) (t : DsTxn) : Option GoErr × KV × DsTxn :=
  match t.status with
  | .active =>
    if ok then
      (none, g.putAll t.staged, { t with status := .committed })
    else
      (some .txnConflict, g, { t with status := .discarded })
  | _ => (some .stale, g, t)

/-- Model of the external store's `Discard`: staged changes vanish and the
datastore is untouched; after a successful `Commit` it has no effect on the
transaction or the state of the datastore. -/
def DsTxn.discard (g : KV) (t : DsTxn) : KV × DsTxn :=
  match t.status with
  | .committed => (g, t)
  | _ => (g, { staged := [], status := .discarded })

/-! ## The repository transaction wrapper (`datastore/txn.go`)

Hook functions (`func()`) are modelled as opaque identifiers; a Go nil
function value is `none`.  Running the hooks produces the trace of invoked
hooks in execution order, which is how "hooks run / do not run" is stated. -/

/-- Embedding of `datastore.txn`: the underlying `ds.Txn` plus the two hook slices. -/
structure Txn where
  t : DsTxn
  successFns : List (Option Nat)
  errorFns : List (Option Nat)
deriving DecidableEq, Repr

/-- Embedding of `txn.OnSuccess`: registering a nil function returns immediately,
otherwise the function is appended to `successFns`. -/
def Txn.onSuccess (tx : Txn) (fn : Option Nat) : Txn :=
  match fn with
  | none => tx
  | some f => { tx with successFns := tx.successFns ++ [some f] }

/-- Embedding of `txn.OnError`: registering a nil function returns immediately,
otherwise the function is appended to `errorFns`. -/
def Txn.onError (tx : Txn) (fn : Option Nat) : Txn :=
  match fn with
  | none => tx
  | some f => { tx with errorFns := tx.errorFns ++ [some f] }

/-- Embedding of `txn.runSuccessFns`: calls each registered success function in slice
order; the result is the trace of invoked hooks. -/
def Txn.runSuccessFns (tx : Txn) : List (Option Nat) :=
  tx.successFns

/-- Embedding of `txn.runErrorFns`: calls each registered error function in slice order;
the result is the trace of invoked hooks. -/
def Txn.runErrorFns (tx : Txn) : List (Option Nat) :=
  tx.errorFns

/-- Embedding of `txn.Commit` from `datastore/txn.go`: commit the underlying transaction;
on error run the error hooks and return the error, otherwise run the success
hooks and return nil.  The result is
(returned error, datastore after, transaction after, trace of hooks run). -/
def Txn.commit (ok : Bool) (g : KV) (tx : Txn) :
    Option GoErr × KV × Txn × List (Option Nat) :=
  match DsTxn.commit ok g tx.t with
  | (some e, g2, t2) => (some e, g2, { tx with t := t2 }, tx.runErrorFns)
  | (none, g2, t2) => (none, g2, { tx with t := t2 }, tx.runSuccessFns)

/-- Embedding of `txn.Discard` from `datastore/txn.go`: it only delegates to the
underlying transaction's `Discard` and runs no hooks. -/
def Txn.discard (g : KV) (tx : Txn) : KV × Txn × List (Option Nat) :=
  let p := tx.t.discard g
  (p.1, { tx with t := p.2 }, [])

/-! ## The retry helper (`withRetry`, tests/integration)

`withRetry` performs up to `MaxTxnRetries` attempts of the action, retrying
(after a sleep, irrelevant here) whenever the attempt fails with
`badgerds.ErrTxnConflict`, returning the attempt's result otherwise.
`res i` is the error result of the `i`-th call of `action` (with `none`
standing for a nil error). -/

/-- The loop body of `withRetry`: `i` is the current attempt index and `k`
the number of loop iterations left; when the loop is exhausted the Go code
falls through to `return nil`. -/
def withRetryAux (res : Nat → Option GoErr) : Nat → Nat → Option GoErr
  | _, 0 => none
  | i, k + 1 =>
    match res i with
    | some e => if e = GoErr.txnConflict then withRetryAux res (i + 1) k else some e
    | none => none

/-- Embedding of `withRetry` from the integration-test harness, with the attempt bound
`maxRetries` given by `DB.MaxTxnRetries`. -/
def withRetry (res : Nat → Option GoErr) (maxRetries : Nat) : Option GoErr :=
  withRetryAux res 0 maxRetries

/-! ## The peer RPC schema (`net/pb/net.proto`) -/

/-- One rpc of the proto service: name, request type, reply type. -/
structure RpcMethod where
  name : String
  request : String
  reply : String
deriving DecidableEq, Repr

/-- One field declaration of a proto message: name, field number, type. -/
structure FieldDecl where
  fieldName : String
  number : Nat
  typeName : String
deriving DecidableEq, Repr

/-- The rpcs of `service Service` in `net/pb/net.proto`, in declaration
order. -/
def serviceMethods : List RpcMethod :=
  [ ⟨"GetDocGraph", "GetDocGraphRequest", "GetDocGraphReply"⟩,
    ⟨"PushDocGraph", "PushDocGraphRequest", "PushDocGraphReply"⟩,
    ⟨"GetLog", "GetLogRequest", "GetLogReply"⟩,
    ⟨"PushLog", "PushLogRequest", "PushLogReply"⟩,
    ⟨"GetHeadLog", "GetHeadLogRequest", "GetHeadLogReply"⟩ ]

/-- The fields of `message PushLogRequest.Body` in `net/pb/net.proto`, in
declaration order. -/
def pushLogBodyFields : List FieldDecl :=
  [ ⟨"docKey", 1, "bytes"⟩,
    ⟨"cid", 2, "bytes"⟩,
    ⟨"schemaID", 3, "bytes"⟩,
    ⟨"creator", 4, "string"⟩,
    ⟨"log", 5, "Document.Log"⟩ ]

/-- The fields of `message Document.Log` in `net/pb/net.proto`: the single
`block` field holding the top-level node's raw data (the serialized commit
payload). -/
def documentLogFields : List FieldDecl :=
  [ ⟨"block", 1, "bytes"⟩ ]

/-- The single field of `message PushLogRequest` (the wrapper around the
body). -/
def pushLogRequestFields : List FieldDecl :=
  [ ⟨"body", 1, "Body"⟩ ]

/-! ## Commit blocks and the scalar LWW register

The MerkleCRDT commit block of the spec's data model.  Addresses are byte
strings (`List Nat`).  The register merge logic itself is not among the
provided Go sources, so it is modelled from the spec. -/

/-- A commit block: content address, priority (height), links to superseded
commits, and an opaque delta payload. -/
structure CommitBlock where
  addr : List Nat
  priority : Nat
  links : List (List Nat)
  delta : Nat
deriving DecidableEq, Repr

/-- Lexicographic "greater than" on address byte strings, as
`bytes.Compare(a, b) > 0` in Go: bytes are compared pointwise and a proper
superstring is greater than its initial segment. -/
def lexGtB : List Nat → List Nat → Bool
  | _ :: _, [] => true
  | [], _ => false
  | a :: as, b :: bs => if a = b then lexGtB as bs else decide (b < a)

/-- Modelled from the spec: the scalar LWW register's merge rule (§4.2) for
combining the current winning commit with an incoming one — highest
`priority` wins; on tie, the commit with the lexicographically greatest
address byte string wins. -/
def lwwWinner (cur inc : CommitBlock) : CommitBlock :=
  if cur.priority < inc.priority then inc
  else if inc.priority < cur.priority then cur
  else if lexGtB inc.addr cur.addr then inc
  else cur

/-! ## The MerkleClock head-set operations

Modelled from the spec (§4.3): the MerkleClock code is not among the
provided Go sources.  The BlockStore is a list of commit blocks looked up by
address; the head set is a list of addresses. -/

/-- The content-addressed BlockStore: commit blocks looked up by address. -/
abbrev Store := List CommitBlock

/-- Looking a block up by its address. -/
def lookupB (s : Store) (a : List Nat) : Option CommitBlock :=
  s.find? (fun b => b.addr = a)

/-- Address `t` is reachable from `a` by following `links` chains through the
store (one or more steps). -/
inductive Reaches (s : Store) : List Nat → List Nat → Prop where
  | direct {a l : List Nat} {b : CommitBlock} :
      lookupB s a = some b → l ∈ b.links → Reaches s a l
  | step {a c l : List Nat} {b : CommitBlock} :
      lookupB s a = some b → l ∈ b.links → Reaches s l c → Reaches s a c

/-- Fuel-bounded reachability along `links` chains: `reachesB s f a t` holds
when `t` is reachable from `a` in at most `f` steps. -/
def reachesB (s : Store) : Nat → List Nat → List Nat → Bool
  | 0, _, _ => false
  | f + 1, a, t =>
    match lookupB s a with
    | none => false
    | some b => b.links.any (fun l => decide (l = t) || reachesB s f l t)

/-- Well-formedness of a store: every link of a stored block resolves to a
stored block of strictly smaller priority (the spec's
`priority = 1 + max(priority of all referenced links)` makes every
reachable ancestor strictly lower). -/
def wfStore (s : Store) : Bool :=
  s.all (fun blk => blk.links.all (fun l =>
    match lookupB s l with
    | some bl => decide (bl.priority < blk.priority)
    | none => false))

/-- Modelled from the spec (§4.3): whether head-set member `x` is dominated,
i.e. appears in the transitive link closure of another member `y`.  The
closure search is bounded by the dominator's priority, which suffices on
well-formed stores. -/
def dominatedIn (s : Store) (hs : List (List Nat)) (x : List Nat) : Bool :=
  hs.any (fun y => decide (y ≠ x) &&
    (match lookupB s y with
     | some b => reachesB s b.priority y x
     | none => false))

/-- Modelled from the spec (§4.3): removing every member of a head set that
appears in another member's transitive link closure. -/
def reduceHeads (s : Store) (hs : List (List Nat)) : List (List Nat) :=
  hs.filter (fun x => ! dominatedIn s hs x)

/-- Modelled from the spec (§4.3): `MergeHeads` recomputes the head set as
the current heads unioned with the incoming head, minus any dominated
member. -/
def mergeHeads (s : Store) (heads : List (List Nat)) (incoming : List Nat) :
    List (List Nat) :=
  reduceHeads s (if heads.contains incoming then heads else heads ++ [incoming])

/-- Modelled from the spec (§4.3): `AddDelta` builds a new commit block
linking all current heads, with priority `1 + max` of the linked priorities
(`0` for a root commit), writes it to the BlockStore and replaces the head
set with the single new address. -/
def addDelta (s : Store) (heads : List (List Nat)) (newAddr : List Nat)
    (v : Nat) : Store × List (List Nat) :=
  let prio :=
    match heads with
    | [] => 0
    | _ => 1 + (heads.map (fun h => ((lookupB s h).map (·.priority)).getD 0)).foldr max 0
  let blk : CommitBlock := ⟨newAddr, prio, heads, v⟩
  (blk :: s, [newAddr])

/-- A successful transaction on one (document, field) key performs either a
local `AddDelta` or a `MergeHeads` of one incoming head. -/
inductive ClockOp where
  | add (newAddr : List Nat) (v : Nat)
  | merge (incoming : List Nat)

/-- Applying one clock operation to the store and the persisted head set. -/
def applyOp (s : Store) (hs : List (List Nat)) : ClockOp → Store × List (List Nat)
  | .add a v => addDelta s hs a v
  | .merge inc => (s, mergeHeads s hs inc)

/-! ## The PushLog receiver

Modelled from the spec (§4.6): the receiver recomputes the content address
of the pushed payload and rejects mismatches as `ErrInvalidBlock` before any
persistent write; otherwise it persists the decoded block verbatim and
recomputes its heads via `MergeHeads`. -/

/-- Network-facing errors of the PushLog handler. -/
inductive NetErr where
  | invalidBlock
  | undecodable
deriving DecidableEq, Repr

/-- Modelled from the spec (§4.6): the receiver's handling of one `PushLog`
delivery.  `hash` is the ContentAddresser, `decode` the block decoder;
`payload` is the serialized commit payload and `claimedCid` the CID claimed
by the sender.  Returns (error, BlockStore after, head set after). -/
def handlePushLog (hash : List Nat → List Nat)
    (decode : List Nat → Option CommitBlock)
    (s : Store) (heads : List (List Nat))
    (claimedCid : List Nat) (payload : List Nat) :
    Option NetErr × Store × List (List Nat) :=
  if hash payload = claimedCid then
    match decode payload with
    | some blk =>
      let s2 := if (lookupB s blk.addr).isSome then s else blk :: s
      (none, s2, mergeHeads s2 heads blk.addr)
    | none => (some .undecodable, s, heads)
  else
    (some .invalidBlock, s, heads)

/-! ## The explain-graph trimming helpers (`tests/integration/explain.go`)

Go maps are heap-allocated and mutated in place, so the embedding carries an
explicit heap: map values live at numeric references, `GoVal` models Go
`any` values restricted to the shapes the trimming code handles
(`map[string]any` references, `[]map[string]any` reference slices, and
opaque primitives), and allocation draws references from a monotone `fresh`
counter. -/

/-- A Go `any` value inside an explain graph. -/
inductive GoVal where
  | prim (tag : Nat)
  | ref (r : Nat)
  | refs (rs : List Nat)
deriving DecidableEq, Repr

/-- The contents of one `map[string]any`. -/
abbrev GoMap := List (String × GoVal)

/-- The heap: map contents looked up by reference. -/
abbrev Heap := List (Nat × GoMap)

/-- Dereferencing a map reference. -/
def lookupH (h : Heap) (r : Nat) : Option GoMap :=
  (h.find? (fun p => p.1 = r)).map (·.2)

/-- In-place update of the map stored at reference `r`. -/
def setH (h : Heap) (r : Nat) (m : GoMap) : Heap :=
  h.map (fun p => if p.1 = r then (r, m) else p)

/-- Every allocated reference of the heap is below `n`. -/
def heapLtB (h : Heap) (n : Nat) : Bool :=
  h.all (fun p => p.1 < n)

/-- Embedding of `allPlanNodeNames` from `tests/integration/explain.go`. -/
def allPlanNodeNames : List String :=
  [ "explain", "root", "subType",
    "averageNode", "countNode", "createNode", "dagScanNode", "deleteNode",
    "groupNode", "limitNode", "multiScanNode", "orderNode", "parallelNode",
    "pipeNode", "scanNode", "selectNode", "selectTopNode", "sumNode",
    "topLevelNode", "typeIndexJoin", "typeJoinMany", "typeJoinOne",
    "updateNode", "valuesNode" ]

/-- Embedding of `isPlanNode` from `tests/integration/explain.go`. -/
def isPlanNode (someName : String) : Bool :=
  allPlanNodeNames.contains someName

mutual

/-- Embedding of `copyMap` from `tests/integration/explain.go`, heap-passing: allocates a
fresh reference holding a deep copy of the map at `r`.  `fuel` bounds the
recursion depth (Go recursion on the acyclic explain graphs always has
enough); returns (heap, fresh counter, new reference).  All companions below
thread state the same way. -/
def copyMap : Nat → Heap → Nat → Nat → Heap × Nat × Nat
  | 0, h, fresh, _ => (h ++ [(fresh, [])], fresh + 1, fresh)
  | fuel + 1, h, fresh, r =>
    match lookupH h r with
    | none => (h ++ [(fresh, [])], fresh + 1, fresh)
    | some m =>
      let p := copyEntries fuel h fresh m
      (p.1 ++ [(p.2.1, p.2.2)], p.2.1 + 1, p.2.1)

/-- The body of `copyMap`'s `range` loop: copies each entry's value. -/
def copyEntries : Nat → Heap → Nat → GoMap → Heap × Nat × GoMap
  | _, h, fresh, [] => (h, fresh, [])
  | 0, h, fresh, _ :: _ => (h, fresh, [])
  | fuel + 1, h, fresh, (k, v) :: rest =>
    let p := copyVal fuel h fresh v
    let q := copyEntries fuel p.1 p.2.1 rest
    (q.1, q.2.1, (k, p.2.2) :: q.2.2)

/-- The `switch` of `copyMap`: nested maps and slices of maps are copied
recursively, any other value is copied by value. -/
def copyVal : Nat → Heap → Nat → GoVal → Heap × Nat × GoVal
  | _, h, fresh, .prim t => (h, fresh, .prim t)
  | 0, h, fresh, v => (h, fresh, v)
  | fuel + 1, h, fresh, .ref r =>
    let p := copyMap fuel h fresh r
    (p.1, p.2.1, .ref p.2.2)
  | fuel + 1, h, fresh, .refs rs =>
    let p := copyRefs fuel h fresh rs
    (p.1, p.2.1, .refs p.2.2)

/-- The slice loop of `copyMap`: copies each `map[string]any` element. -/
def copyRefs : Nat → Heap → Nat → List Nat → Heap × Nat × List Nat
  | _, h, fresh, [] => (h, fresh, [])
  | 0, h, fresh, _ :: _ => (h, fresh, [])
  | fuel + 1, h, fresh, r :: rest =>
    let p := copyMap fuel h fresh r
    let q := copyRefs fuel p.1 p.2.1 rest
    (q.1, q.2.1, p.2.2 :: q.2.2)

end

/-- Embedding of `trimSubNodes` from `tests/integration/explain.go`: non-map graphs are
returned unchanged; a map graph is deep-copied and the copy's plan-node keys
are deleted in place. -/
def trimSubNodes (fuel : Nat) (h : Heap) (fresh : Nat) :
    GoVal → Heap × Nat × GoVal
  | .ref r =>
    let p := copyMap fuel h fresh r
    match lookupH p.1 p.2.2 with
    | none => (p.1, p.2.1, .ref p.2.2)
    | some m =>
      (setH p.1 p.2.2 (m.filter (fun kv => ! isPlanNode kv.1)), p.2.1, .ref p.2.2)
  | g => (h, fresh, g)

mutual

/-- Embedding of `trimExplainAttributes` from `tests/integration/explain.go`:
deep-copies the map, then deletes every non-plan-node key of the copy and
recursively trims the plan-node values, updating the copy in place. -/
def trimExplainAttributes : Nat → Heap → Nat → Nat → Heap × Nat × Nat
  | 0, h, fresh, r => copyMap 0 h fresh r
  | fuel + 1, h, fresh, r =>
    let p := copyMap (fuel + 1) h fresh r
    match lookupH p.1 p.2.2 with
    | none => (p.1, p.2.1, p.2.2)
    | some m =>
      let q := trimEntries fuel p.1 p.2.1 m
      (setH q.1 p.2.2 q.2.2, q.2.1, p.2.2)

/-- The body of `trimExplainAttributes`' `range` loop over the copied map:
non-plan-node keys are deleted; map values are trimmed recursively; slices
of maps are rebuilt from trimmed elements; anything else trips the test
failure branch and is left as is. -/
def trimEntries : Nat → Heap → Nat → GoMap → Heap × Nat × GoMap
  | _, h, fresh, [] => (h, fresh, [])
  | 0, h, fresh, _ :: _ => (h, fresh, [])
  | fuel + 1, h, fresh, (k, v) :: rest =>
    if ! isPlanNode k then trimEntries fuel h fresh rest
    else
      match v with
      | .ref r =>
        let p := trimExplainAttributes fuel h fresh r
        let q := trimEntries fuel p.1 p.2.1 rest
        (q.1, q.2.1, (k, .ref p.2.2) :: q.2.2)
      | .refs rs =>
        let p := trimRefs fuel h fresh rs
        let q := trimEntries fuel p.1 p.2.1 rest
        (q.1, q.2.1, (k, .refs p.2.2) :: q.2.2)
      | .prim t =>
        let q := trimEntries fuel h fresh rest
        (q.1, q.2.1, (k, .prim t) :: q.2.2)

/-- The slice loop of `trimExplainAttributes`. -/
def trimRefs : Nat → Heap → Nat → List Nat → Heap × Nat × List Nat
  | _, h, fresh, [] => (h, fresh, [])
  | 0, h, fresh, _ :: _ => (h, fresh, [])
  | fuel + 1, h, fresh, r :: rest =>
    let p := trimExplainAttributes fuel h fresh r
    let q := trimRefs fuel p.1 p.2.1 rest
    (q.1, q.2.1, p.2.2 :: q.2.2)

end

/-! ## Helper lemmas -/

/-- Folding `OnSuccess` registrations appends exactly the non-nil functions,
in registration order. -/
lemma foldl_onSuccess_successFns (regs : List (Option Nat)) (tx : Txn) :
    (regs.foldl Txn.onSuccess tx).successFns =
      tx.successFns ++ regs.filter (fun o => o.isSome) := by
  induction regs generalizing tx with
  | nil => simp
  | cons r rs ih =>
    cases r with
    | none => simp [Txn.onSuccess, ih]
    | some f => simp [Txn.onSuccess, ih]

/-- Folding `OnSuccess` registrations leaves `errorFns` untouched. -/
lemma foldl_onSuccess_errorFns (regs : List (Option Nat)) (tx : Txn) :
    (regs.foldl Txn.onSuccess tx).errorFns = tx.errorFns := by
  induction regs generalizing tx with
  | nil => rfl
  | cons r rs ih =>
    cases r with
    | none => simp [Txn.onSuccess, ih]
    | some f => simp [Txn.onSuccess, ih]

/-- Folding `OnError` registrations appends exactly the non-nil functions,
in registration order. -/
lemma foldl_onError_errorFns (regs : List (Option Nat)) (tx : Txn) :
    (regs.foldl Txn.onError tx).errorFns =
      tx.errorFns ++ regs.filter (fun o => o.isSome) := by
  induction regs generalizing tx with
  | nil => simp
  | cons r rs ih =>
    cases r with
    | none => simp [Txn.onError, ih]
    | some f => simp [Txn.onError, ih]

/-- Folding `OnError` registrations leaves `successFns` untouched. -/
lemma foldl_onError_successFns (regs : List (Option Nat)) (tx : Txn) :
    (regs.foldl Txn.onError tx).successFns = tx.successFns := by
  induction regs generalizing tx with
  | nil => rfl
  | cons r rs ih =>
    cases r with
    | none => simp [Txn.onError, ih]
    | some f => simp [Txn.onError, ih]

/-- Lemma: `withRetryAux` only ever consults the results of attempts
`i, …, i + k - 1`. -/
lemma withRetryAux_congr : ∀ (k i : Nat) (res res2 : Nat → Option GoErr),
    (∀ j, i ≤ j → j < i + k → res j = res2 j) →
    withRetryAux res i k = withRetryAux res2 i k := by
  intro k
  induction k with
  | zero => intro i res res2 _; rfl
  | succ k ih =>
    intro i res res2 h
    have h0 : res i = res2 i := h i le_rfl (by omega)
    simp only [withRetryAux, h0]
    cases res2 i with
    | none => rfl
    | some e =>
      by_cases he : e = GoErr.txnConflict
      · simp only [he, if_pos rfl]
        exact ih (i + 1) res res2 fun j h1 h2 => h j (by omega) (by omega)
      · simp [he]

/-- When every attempt in range fails with the conflict error, the retry
loop runs to exhaustion and falls through to `return nil`. -/
lemma withRetryAux_all_conflict : ∀ (k i : Nat) (res : Nat → Option GoErr),
    (∀ j, i ≤ j → j < i + k → res j = some GoErr.txnConflict) →
    withRetryAux res i k = none := by
  intro k
  induction k with
  | zero => intro i res _; rfl
  | succ k ih =>
    intro i res h
    have h0 : res i = some GoErr.txnConflict := h i le_rfl (by omega)
    simp only [withRetryAux, h0, if_pos rfl]
    exact ih (i + 1) res fun j h1 h2 => h j (by omega) (by omega)

/-- Asymmetry of `lexGtB`. -/
lemma lexGtB_asymm : ∀ x y : List Nat, lexGtB x y = true → lexGtB y x = false := by
  intro x
  induction x with
  | nil => intro y h; cases y <;> simp [lexGtB] at h ⊢
  | cons a as ih =>
    intro y h
    cases y with
    | nil => simp [lexGtB]
    | cons b bs =>
      by_cases hab : a = b
      · subst hab
        simp only [lexGtB, if_pos rfl] at h ⊢
        exact ih bs h
      · simp only [lexGtB, if_neg hab] at h
        have hba : ¬ b = a := fun hba => hab hba.symm
        simp only [lexGtB, if_neg hba]
        simp only [decide_eq_true_eq] at h
        simp only [decide_eq_false_iff_not]
        omega

/-- Totality of `lexGtB` on distinct byte strings. -/
lemma lexGtB_total : ∀ x y : List Nat, x ≠ y →
    lexGtB x y = true ∨ lexGtB y x = true := by
  intro x
  induction x with
  | nil =>
    intro y hne
    cases y with
    | nil => exact absurd rfl hne
    | cons b bs => right; simp [lexGtB]
  | cons a as ih =>
    intro y hne
    cases y with
    | nil => left; simp [lexGtB]
    | cons b bs =>
      by_cases hab : a = b
      · subst hab
        have hne2 : as ≠ bs := fun h => hne (by rw [h])
        have := ih bs hne2
        simpa [lexGtB] using this
      · have hba : ¬ b = a := fun hba => hab hba.symm
        simp only [lexGtB, if_neg hab, if_neg hba, decide_eq_true_eq]
        omega

/-! ## C9 — nil hook registration -/

/-- C9: for every transaction, registering a nil function via OnSuccess or
OnError is a no-op — the nil function is never appended to the hook lists,
so no nil function is ever invoked when the hooks fire on Commit success or
failure. -/
theorem nil_hook_registration_noop (tx : Txn) (regsS regsE : List (Option Nat))
    (hs : ∀ f ∈ tx.successFns, f ≠ none) (he : ∀ f ∈ tx.errorFns, f ≠ none)
    (ok : Bool) (g : KV) :
    Txn.onSuccess tx none = tx ∧ Txn.onError tx none = tx ∧
    (∀ f ∈ (Txn.commit ok g
        (regsE.foldl Txn.onError (regsS.foldl Txn.onSuccess tx))).2.2.2,
      f ≠ none) := by
  refine ⟨rfl, rfl, ?_⟩
  intro f hf
  set tx2 := regsE.foldl Txn.onError (regsS.foldl Txn.onSuccess tx) with htx2
  have hsucc : ∀ f2 ∈ tx2.successFns, f2 ≠ none := by
    rw [htx2, foldl_onError_successFns, foldl_onSuccess_successFns]
    intro f2 hf2
    rcases List.mem_append.mp hf2 with h2 | h2
    · exact hs f2 h2
    · rcases List.mem_filter.mp h2 with ⟨_, hsome⟩
      intro hcontra
      rw [hcontra] at hsome
      simp at hsome
  have herr : ∀ f2 ∈ tx2.errorFns, f2 ≠ none := by
    rw [htx2, foldl_onError_errorFns, foldl_onSuccess_errorFns]
    intro f2 hf2
    rcases List.mem_append.mp hf2 with h2 | h2
    · exact he f2 h2
    · rcases List.mem_filter.mp h2 with ⟨_, hsome⟩
      intro hcontra
      rw [hcontra] at hsome
      simp at hsome
  rcases hcm : DsTxn.commit ok g tx2.t with ⟨err, g2, t2⟩
  cases err with
  | none =>
    have : (Txn.commit ok g tx2).2.2.2 = tx2.successFns := by
      simp [Txn.commit, hcm, Txn.runSuccessFns]
    rw [this] at hf
    exact hsucc f hf
  | some e =>
    have : (Txn.commit ok g tx2).2.2.2 = tx2.errorFns := by
      simp [Txn.commit, hcm, Txn.runErrorFns]
    rw [this] at hf
    exact herr f hf

/-- C9 witness: a concrete registration sequence containing nil functions
yields hook lists free of nil. -/
theorem nil_hook_registration_noop_witness :
    Txn.onSuccess ⟨⟨[], .active⟩, [], []⟩ none = ⟨⟨[], .active⟩, [], []⟩ ∧
    (∀ f ∈ (Txn.commit true ⟨[]⟩
        ([none, some 2].foldl Txn.onError
          ([some 1, none].foldl Txn.onSuccess ⟨⟨[], .active⟩, [], []⟩))).2.2.2,
      f ≠ none) := by
  have h := nil_hook_registration_noop ⟨⟨[], .active⟩, [], []⟩ [some 1, none]
    [none, some 2] (by simp) (by simp) true ⟨[]⟩
  exact ⟨h.1, h.2.2⟩

/-! ## C5 — the shape of the peer RPC service -/

/-- C5: the peer RPC service defines exactly the five request/response
operations GetDocGraph, PushDocGraph, GetLog, PushLog, GetHeadLog, and the
PushLog request body carries exactly the document key, the commit CID, the
schema identifier, the creator peer identifier, and the serialized commit
payload (the block bytes inside `Document.Log`). -/
theorem service_five_methods_and_pushlog_body :
    serviceMethods.map RpcMethod.name =
      ["GetDocGraph", "PushDocGraph", "GetLog", "PushLog", "GetHeadLog"]
    ∧ serviceMethods.length = 5
    ∧ pushLogBodyFields.map (fun f => f.fieldName) =
      ["docKey", "cid", "schemaID", "creator", "log"]
    ∧ pushLogBodyFields.map (fun f => f.number) = [1, 2, 3, 4, 5]
    ∧ pushLogBodyFields.map (fun f => f.typeName) =
      ["bytes", "bytes", "bytes", "string", "Document.Log"]
    ∧ documentLogFields = [⟨"block", 1, "bytes"⟩]
    ∧ pushLogRequestFields = [⟨"body", 1, "Body"⟩] := by
  refine ⟨rfl, rfl, rfl, rfl, rfl, rfl, rfl⟩

/-! ## C2 — the retry bound -/

/-- C2 counterexample: with MaxTxnRetries = 5 and every attempt failing with
the transaction-conflict error, `withRetry` returns nil — the conflict error
is swallowed rather than returned to the original caller. -/
theorem withRetry_exhaustion_swallows_conflict :
    withRetry (fun _ => some GoErr.txnConflict) 5 = none
    ∧ withRetry (fun _ => some GoErr.txnConflict) 5 ≠ some GoErr.txnConflict := by
  refine ⟨rfl, ?_⟩
  intro h
  simp [withRetry, withRetryAux] at h

/-- C2 amended: retrying is bounded by the configured maximum attempt count
(the result depends only on the first MaxTxnRetries attempts, and any
non-conflict attempt result is returned at once), but when every attempt up
to the bound fails with the conflict error, `withRetry` returns nil — the
conflict error is not surfaced to the caller. -/
theorem withRetry_bounded_amended (res : Nat → Option GoErr) (maxRetries : Nat) :
    (∀ res2 : Nat → Option GoErr,
      (∀ i, i < maxRetries → res i = res2 i) →
      withRetry res maxRetries = withRetry res2 maxRetries)
    ∧ ((∀ i, i < maxRetries → res i = some GoErr.txnConflict) →
      withRetry res maxRetries = none)
    ∧ (∀ e, 0 < maxRetries → res 0 = some e → e ≠ GoErr.txnConflict →
      withRetry res maxRetries = some e)
    ∧ (0 < maxRetries → res 0 = none → withRetry res maxRetries = none) := by
  refine ⟨?_, ?_, ?_, ?_⟩
  · intro res2 h
    exact withRetryAux_congr maxRetries 0 res res2 fun j h1 h2 => h j (by omega)
  · intro h
    exact withRetryAux_all_conflict maxRetries 0 res fun j h1 h2 => h j (by omega)
  · intro e hm h0 hne
    rcases maxRetries with _ | k
    · omega
    · simp [withRetry, withRetryAux, h0, hne]
  · intro hm h0
    rcases maxRetries with _ | k
    · omega
    · simp [withRetry, withRetryAux, h0]

/-- C2 witness: a run whose first attempt fails with a distinct error
surfaces that error unchanged, and a run of nothing but conflicts under the
bound 3 returns nil. -/
theorem withRetry_bounded_amended_witness :
    withRetry (fun _ => some (GoErr.other 9)) 3 = some (GoErr.other 9)
    ∧ withRetry (fun _ => some GoErr.txnConflict) 3 = none := by
  constructor
  · exact (withRetry_bounded_amended (fun _ => some (GoErr.other 9)) 3).2.2.1
      (GoErr.other 9) (by omega) rfl (by simp)
  · exact (withRetry_bounded_amended (fun _ => some GoErr.txnConflict) 3).2.1
      fun i _ => rfl

/-! ## C1 — hook execution on Commit and Discard -/

/-- C1 counterexample: a function registered via OnError does not run on the
path that ends in Discard — discarding runs no hooks at all, so the hook
registered here (7) is absent from the trace of the Discard path. -/
theorem onError_hook_not_run_on_discard :
    (Txn.onError ⟨⟨[], .active⟩, [], []⟩ (some 7)).errorFns = [some 7]
    ∧ (Txn.discard ⟨[]⟩ (Txn.onError ⟨⟨[], .active⟩, [], []⟩ (some 7))).2.2 = []
    ∧ ¬ some 7 ∈ (Txn.discard ⟨[]⟩
        (Txn.onError ⟨⟨[], .active⟩, [], []⟩ (some 7))).2.2 := by
  refine ⟨rfl, rfl, ?_⟩
  simp [Txn.discard, Txn.onError, DsTxn.discard]

/-- C1 amended: OnSuccess hooks run exactly once, in registration order,
only after the underlying Commit succeeds; OnError hooks run, in
registration order, exactly when Commit fails (Discard runs no hooks at
all); and the registered hook lists never influence the commit's returned
error or the resulting datastore state (hooks are fire-and-forget). -/
theorem txn_hook_execution (ok : Bool) (g : KV) (t : DsTxn)
    (s e : List (Option Nat)) :
    ((Txn.commit ok g ⟨t, s, e⟩).1 = none →
      (Txn.commit ok g ⟨t, s, e⟩).2.2.2 = s)
    ∧ (∀ err, (Txn.commit ok g ⟨t, s, e⟩).1 = some err →
      (Txn.commit ok g ⟨t, s, e⟩).2.2.2 = e)
    ∧ (Txn.discard g ⟨t, s, e⟩).2.2 = []
    ∧ (∀ s2 e2 : List (Option Nat),
      (Txn.commit ok g ⟨t, s2, e2⟩).1 = (Txn.commit ok g ⟨t, s, e⟩).1
      ∧ (Txn.commit ok g ⟨t, s2, e2⟩).2.1 = (Txn.commit ok g ⟨t, s, e⟩).2.1)
    ∧ (∀ regs : List (Option Nat),
      (regs.foldl Txn.onSuccess ⟨t, [], []⟩).successFns =
        regs.filter (fun o => o.isSome)
      ∧ (regs.foldl Txn.onError ⟨t, [], []⟩).errorFns =
        regs.filter (fun o => o.isSome)) := by
  refine ⟨?_, ?_, rfl, ?_, ?_⟩
  · intro h
    cases hst : t.status with
    | active =>
      cases ok with
      | true => simp [Txn.commit, DsTxn.commit, hst, Txn.runSuccessFns]
      | false => simp [Txn.commit, DsTxn.commit, hst] at h
    | committed => simp [Txn.commit, DsTxn.commit, hst] at h
    | discarded => simp [Txn.commit, DsTxn.commit, hst] at h
  · intro err h
    cases hst : t.status with
    | active =>
      cases ok with
      | true => simp [Txn.commit, DsTxn.commit, hst] at h
      | false => simp [Txn.commit, DsTxn.commit, hst, Txn.runErrorFns]
    | committed => simp [Txn.commit, DsTxn.commit, hst, Txn.runErrorFns]
    | discarded => simp [Txn.commit, DsTxn.commit, hst, Txn.runErrorFns]
  · intro s2 e2
    cases hst : t.status with
    | active =>
      cases ok with
      | true => simp [Txn.commit, DsTxn.commit, hst]
      | false => simp [Txn.commit, DsTxn.commit, hst]
    | committed => simp [Txn.commit, DsTxn.commit, hst]
    | discarded => simp [Txn.commit, DsTxn.commit, hst]
  · intro regs
    constructor
    · rw [foldl_onSuccess_successFns]; rfl
    · rw [foldl_onError_errorFns]; rfl

/-- C1 witness: on a concrete active transaction, a successful commit runs
exactly the success hooks in order, a failed commit runs exactly the error
hooks, and a discard runs nothing. -/
theorem txn_hook_execution_witness :
    (Txn.commit true ⟨[]⟩ ⟨⟨[("k", "v")], .active⟩, [some 1, some 2], [some 3]⟩).2.2.2
      = [some 1, some 2]
    ∧ (Txn.commit false ⟨[]⟩ ⟨⟨[("k", "v")], .active⟩, [some 1, some 2], [some 3]⟩).2.2.2
      = [some 3]
    ∧ (Txn.discard ⟨[]⟩ ⟨⟨[("k", "v")], .active⟩, [some 1, some 2], [some 3]⟩).2.2
      = [] := by
  refine ⟨?_, ?_, ?_⟩
  · exact (txn_hook_execution true ⟨[]⟩ ⟨[("k", "v")], .active⟩
      [some 1, some 2] [some 3]).1 rfl
  · exact (txn_hook_execution false ⟨[]⟩ ⟨[("k", "v")], .active⟩
      [some 1, some 2] [some 3]).2.1 GoErr.txnConflict rfl
  · exact (txn_hook_execution false ⟨[]⟩ ⟨[("k", "v")], .active⟩
      [some 1, some 2] [some 3]).2.2.1

/-! ## C3 — Discard after a successful Commit -/

/-- C3: for every transaction whose Commit returned successfully, a
subsequent Discard is safe and has no effect — the datastore state and the
transaction are unchanged and no hooks run. -/
theorem discard_after_commit_noop (ok : Bool) (g : KV) (tx : Txn)
    (h : (Txn.commit ok g tx).1 = none) :
    Txn.discard (Txn.commit ok g tx).2.1 (Txn.commit ok g tx).2.2.1 =
      ((Txn.commit ok g tx).2.1, (Txn.commit ok g tx).2.2.1, []) := by
  cases hst : tx.t.status with
  | active =>
    cases ok with
    | true =>
      simp [Txn.commit, DsTxn.commit, hst, Txn.discard, DsTxn.discard]
    | false => simp [Txn.commit, DsTxn.commit, hst] at h
  | committed => simp [Txn.commit, DsTxn.commit, hst] at h
  | discarded => simp [Txn.commit, DsTxn.commit, hst] at h

/-- C3 witness: a concrete committed transaction is unaffected by a
subsequent Discard. -/
theorem discard_after_commit_noop_witness :
    Txn.discard
        (Txn.commit true ⟨[]⟩ ⟨⟨[("k", "v")], .active⟩, [some 1], [some 2]⟩).2.1
        (Txn.commit true ⟨[]⟩ ⟨⟨[("k", "v")], .active⟩, [some 1], [some 2]⟩).2.2.1 =
      ((Txn.commit true ⟨[]⟩ ⟨⟨[("k", "v")], .active⟩, [some 1], [some 2]⟩).2.1,
        (Txn.commit true ⟨[]⟩ ⟨⟨[("k", "v")], .active⟩, [some 1], [some 2]⟩).2.2.1,
        []) :=
  discard_after_commit_noop true ⟨[]⟩ ⟨⟨[("k", "v")], .active⟩, [some 1], [some 2]⟩ rfl

/-! ## C4 — failed Commit leaves no partial state; Discard rolls back -/

/-- C4: for every transaction, if Commit returns an error then none of the
staged writes reach the datastore (the mutation fails as a whole), and a
Discard rolls back all staged writes — the datastore is untouched and an
unfinished transaction's staged buffer is emptied. -/
theorem failed_commit_atomicity (ok : Bool) (g : KV) (tx : Txn) :
    (∀ err, (Txn.commit ok g tx).1 = some err → (Txn.commit ok g tx).2.1 = g)
    ∧ (Txn.discard g tx).1 = g
    ∧ (tx.t.status = .active → (Txn.discard g tx).2.1.t.staged = []) := by
  refine ⟨?_, ?_, ?_⟩
  · intro err h
    cases hst : tx.t.status with
    | active =>
      cases ok with
      | true => simp [Txn.commit, DsTxn.commit, hst] at h
      | false => simp [Txn.commit, DsTxn.commit, hst]
    | committed => simp [Txn.commit, DsTxn.commit, hst]
    | discarded => simp [Txn.commit, DsTxn.commit, hst]
  · cases hst : tx.t.status <;> simp [Txn.discard, DsTxn.discard, hst]
  · intro hst
    simp [Txn.discard, DsTxn.discard, hst]

/-- C4 witness: a concrete conflicting commit leaves the datastore
untouched, and a concrete discard empties the staged buffer. -/
theorem failed_commit_atomicity_witness :
    (Txn.commit false ⟨[("a", "b")]⟩ ⟨⟨[("k", "v")], .active⟩, [], []⟩).2.1
      = ⟨[("a", "b")]⟩
    ∧ (Txn.discard ⟨[("a", "b")]⟩ ⟨⟨[("k", "v")], .active⟩, [], []⟩).2.1.t.staged
      = [] := by
  constructor
  · exact (failed_commit_atomicity false ⟨[("a", "b")]⟩
      ⟨⟨[("k", "v")], .active⟩, [], []⟩).1 GoErr.txnConflict rfl
  · exact (failed_commit_atomicity false ⟨[("a", "b")]⟩
      ⟨⟨[("k", "v")], .active⟩, [], []⟩).2.2 rfl

/-! ## C7 — LWW tie-break stability -/

/-- C7: for commits of equal priority, the scalar LWW register resolves the
same winner in either merge order — the commit with the lexicographically
greatest address byte string wins the tie, and with unequal priorities the
higher-priority commit wins independent of arrival order. -/
theorem lww_tiebreak_stable (a b : CommitBlock) (hp : a.priority = b.priority)
    (hinj : a.addr = b.addr → a = b) :
    lwwWinner a b = lwwWinner b a
    ∧ (lexGtB a.addr b.addr = true → lwwWinner a b = a ∧ lwwWinner b a = a)
    ∧ (lexGtB b.addr a.addr = true → lwwWinner a b = b ∧ lwwWinner b a = b)
    ∧ (∀ c d : CommitBlock, d.priority < c.priority →
      lwwWinner c d = c ∧ lwwWinner d c = c) := by
  have hnab : ¬ a.priority < b.priority := by omega
  have hnba : ¬ b.priority < a.priority := by omega
  refine ⟨?_, ?_, ?_, ?_⟩
  · by_cases hab : lexGtB a.addr b.addr = true
    · have hba := lexGtB_asymm a.addr b.addr hab
      simp [lwwWinner, hnab, hnba, hab, hba]
    · by_cases hba : lexGtB b.addr a.addr = true
      · have hab2 := lexGtB_asymm b.addr a.addr hba
        simp [lwwWinner, hnab, hnba, hba, hab2]
      · have heq : a.addr = b.addr := by
          by_contra hne
          rcases lexGtB_total a.addr b.addr hne with h | h
          · exact hab h
          · exact hba h
        have : a = b := hinj heq
        subst this
        rfl
  · intro hab
    have hba := lexGtB_asymm a.addr b.addr hab
    simp [lwwWinner, hnab, hnba, hab, hba]
  · intro hba
    have hab := lexGtB_asymm b.addr a.addr hba
    simp [lwwWinner, hnab, hnba, hba, hab]
  · intro c d hd
    have h1 : ¬ c.priority < d.priority := by omega
    simp [lwwWinner, hd, h1]

/-- C7 witness: two concrete equal-priority commits resolve to the same
winner in both merge orders, and it is the one with the greater address. -/
theorem lww_tiebreak_stable_witness :
    lwwWinner ⟨[2], 1, [], 10⟩ ⟨[1], 1, [], 20⟩ =
      lwwWinner ⟨[1], 1, [], 20⟩ ⟨[2], 1, [], 10⟩
    ∧ lwwWinner ⟨[2], 1, [], 10⟩ ⟨[1], 1, [], 20⟩ = ⟨[2], 1, [], 10⟩ := by
  have h := lww_tiebreak_stable ⟨[2], 1, [], 10⟩ ⟨[1], 1, [], 20⟩ rfl (by decide)
  exact ⟨h.1, (h.2.1 (by decide)).1⟩

/-! ## C6 — head dominance -/

/-- On a well-formed store, every link of a stored block resolves to a block
of strictly smaller priority. -/
lemma wf_links {s : Store} (hwf : wfStore s = true) {a : List Nat}
    {b : CommitBlock} (hl : lookupB s a = some b) {l : List Nat}
    (hm : l ∈ b.links) :
    ∃ bl, lookupB s l = some bl ∧ bl.priority < b.priority := by
  have hbmem : b ∈ s := List.mem_of_find?_eq_some hl
  have h1 := (List.all_eq_true.mp hwf) b hbmem
  have h2 := (List.all_eq_true.mp h1) l hm
  cases hll : lookupB s l with
  | none => rw [hll] at h2; simp at h2
  | some bl =>
    rw [hll] at h2
    simp only [decide_eq_true_eq] at h2
    exact ⟨bl, rfl, h2⟩

/-- Unfolding fuel-bounded reachability when the start address is absent. -/
lemma reachesB_succ_none {s : Store} {a : List Nat} (hl : lookupB s a = none)
    (f : Nat) (t : List Nat) : reachesB s (f + 1) a t = false := by
  simp [reachesB, hl]

/-- Unfolding fuel-bounded reachability when the start address resolves. -/
lemma reachesB_succ_some {s : Store} {a : List Nat} {b : CommitBlock}
    (hl : lookupB s a = some b) (f : Nat) (t : List Nat) :
    reachesB s (f + 1) a t =
      b.links.any (fun l => decide (l = t) || reachesB s f l t) := by
  simp [reachesB, hl]

/-- Fuel-bounded reachability is monotone in the fuel. -/
lemma reachesB_mono (s : Store) : ∀ (m n : Nat), m ≤ n →
    ∀ (a t : List Nat), reachesB s m a t = true → reachesB s n a t = true := by
  intro m
  induction m with
  | zero => intro n _ a t h; simp [reachesB] at h
  | succ m ih =>
    intro n hmn a t h
    rcases n with _ | n
    · omega
    cases hl : lookupB s a with
    | none =>
      rw [reachesB_succ_none hl] at h
      exact absurd h (by simp)
    | some b =>
      rw [reachesB_succ_some hl] at h
      rw [reachesB_succ_some hl]
      simp only [List.any_eq_true] at h ⊢
      rcases h with ⟨l, hlm, hor⟩
      refine ⟨l, hlm, ?_⟩
      simp only [Bool.or_eq_true] at hor ⊢
      rcases hor with h1 | h1
      · exact Or.inl h1
      · exact Or.inr (ih n (by omega) l t h1)

/-- On a well-formed store, the priority of the start block is enough fuel
to witness any reachability fact: links strictly decrease priority. -/
lemma reaches_complete {s : Store} (hwf : wfStore s = true) {a t : List Nat}
    (hr : Reaches s a t) :
    ∀ b : CommitBlock, lookupB s a = some b → reachesB s b.priority a t = true := by
  induction hr with
  | @direct a0 l b0 hl hm =>
    intro b hb
    rw [hl] at hb
    injection hb with hb
    subst hb
    rcases wf_links hwf hl hm with ⟨bl, _, hp⟩
    rcases hpr : b0.priority with _ | k
    · omega
    · rw [reachesB_succ_some hl]
      simp only [List.any_eq_true]
      exact ⟨l, hm, by simp⟩
  | @step a0 c l b0 hl hm _ ih =>
    intro b hb
    rw [hl] at hb
    injection hb with hb
    subst hb
    rcases wf_links hwf hl hm with ⟨bl, hbl, hp⟩
    have hrec := ih bl hbl
    rcases hpr : b0.priority with _ | k
    · omega
    · rw [hpr] at hp
      have hrec2 : reachesB s k l c = true :=
        reachesB_mono s bl.priority k (by omega) l c hrec
      rw [reachesB_succ_some hl]
      simp only [List.any_eq_true]
      exact ⟨l, hm, by simp [hrec2]⟩

/-- C6: after any successful transaction on a (document, field) key — a
local AddDelta or a MergeHeads of an incoming head — the persisted head set
contains no address reachable via the `links` chains of another address in
the same head set: no head is dominated by another head present in the
set. -/
theorem merkle_head_dominance (s : Store) (hs : List (List Nat)) (op : ClockOp)
    (hwf : wfStore (applyOp s hs op).1 = true) :
    ∀ x ∈ (applyOp s hs op).2, ∀ y ∈ (applyOp s hs op).2,
      y ≠ x → ¬ Reaches (applyOp s hs op).1 y x := by
  cases op with
  | add newAddr v =>
    intro x hx y hy hne _
    simp only [applyOp, addDelta, List.mem_singleton] at hx hy
    exact hne (hy.trans hx.symm)
  | merge inc =>
    intro x hx y hy hne hr
    simp only [applyOp] at hx hy hr hwf
    rw [mergeHeads, reduceHeads, List.mem_filter] at hx hy
    rcases hx with ⟨hxu, hxnd⟩
    rcases hy with ⟨hyu, _⟩
    have hlook : ∃ b, lookupB s y = some b := by
      cases hr with
      | direct hl _ => exact ⟨_, hl⟩
      | step hl _ _ => exact ⟨_, hl⟩
    rcases hlook with ⟨b, hb⟩
    have hreach := reaches_complete hwf hr b hb
    have hdom : dominatedIn s
        (if hs.contains inc then hs else hs ++ [inc]) x = true := by
      rw [dominatedIn, List.any_eq_true]
      refine ⟨y, hyu, ?_⟩
      rw [Bool.and_eq_true]
      refine ⟨by simp [hne], ?_⟩
      rw [hb]
      exact hreach
    rw [hdom] at hxnd
    simp at hxnd

/-- C6 witness: merging a concurrent head into a concrete store keeps both
frontier heads and neither reaches the other. -/
theorem merkle_head_dominance_witness :
    ¬ Reaches [⟨[1], 1, [[0]], 5⟩, ⟨[2], 1, [[0]], 6⟩, ⟨[0], 0, [], 4⟩] [1] [2] := by
  have h := merkle_head_dominance
    [⟨[1], 1, [[0]], 5⟩, ⟨[2], 1, [[0]], 6⟩, ⟨[0], 0, [], 4⟩]
    [[1]] (.merge [2]) (by decide)
  exact h [2] (by decide) [1] (by decide) (by decide)

/-! ## C8 — PushLog rejects address mismatches without mutation -/

/-- C8: a PushLog delivery whose recomputed content address does not match
the claimed CID is rejected with ErrInvalidBlock, and neither the BlockStore
nor the HeadStore is mutated — no block is persisted and no commit is
created on behalf of the remote mutation. -/
theorem pushlog_mismatch_rejected (hash : List Nat → List Nat)
    (decode : List Nat → Option CommitBlock) (s : Store)
    (heads : List (List Nat)) (cid payload : List Nat)
    (h : hash payload ≠ cid) :
    handlePushLog hash decode s heads cid payload =
      (some NetErr.invalidBlock, s, heads) := by
  simp [handlePushLog, h]

/-- C8 witness: a concrete mismatching delivery is rejected and the stores
are returned unchanged. -/
theorem pushlog_mismatch_rejected_witness :
    handlePushLog (fun bs => [bs.length]) (fun _ => none)
        [⟨[0], 0, [], 4⟩] [[0]] [5] [1, 2] =
      (some NetErr.invalidBlock, [⟨[0], 0, [], 4⟩], [[0]]) :=
  pushlog_mismatch_rejected (fun bs => [bs.length]) (fun _ => none)
    [⟨[0], 0, [], 4⟩] [[0]] [5] [1, 2] (by decide)

/-! ## C10 — the trimming helpers do not mutate the input graph -/

/-- The frame relation between an initial heap/allocation counter and a
final one: every reference allocated before stays bound to the same map, and
the counter only grows. -/
def HeapFrame (h : Heap) (fresh : Nat) (h2 : Heap) (fresh2 : Nat) : Prop :=
  (∀ a, a < fresh → lookupH h2 a = lookupH h a) ∧ fresh ≤ fresh2

lemma heapFrame_refl (h : Heap) (fresh : Nat) : HeapFrame h fresh h fresh :=
  ⟨fun _ _ => rfl, le_refl fresh⟩

lemma HeapFrame.trans {h h2 h3 : Heap} {f f2 f3 : Nat}
    (p : HeapFrame h f h2 f2) (q : HeapFrame h2 f2 h3 f3) :
    HeapFrame h f h3 f3 := by
  obtain ⟨p1, p2⟩ := p
  obtain ⟨q1, q2⟩ := q
  refine ⟨?_, by omega⟩
  intro a ha
  rw [q1 a (by omega), p1 a ha]

/-- Appending a binding at reference `k` leaves lookups of other references
unchanged. -/
lemma lookupH_append_ne (h : Heap) (k : Nat) (m : GoMap) (a : Nat)
    (hne : a ≠ k) : lookupH (h ++ [(k, m)]) a = lookupH h a := by
  induction h with
  | nil =>
    have : ¬ k = a := fun hk => hne hk.symm
    simp [lookupH, List.find?, this]
  | cons p ps ih =>
    by_cases hp : p.1 = a
    · simp [lookupH, List.find?, hp]
    · simp only [lookupH, List.cons_append] at ih ⊢
      rw [List.find?_cons_of_neg, List.find?_cons_of_neg]
      · exact ih
      · simp [hp]
      · simp [hp]

/-- The allocation step of `copyMap`: frame-correct. -/
lemma HeapFrame.alloc (h : Heap) (fresh : Nat) (m : GoMap) :
    HeapFrame h fresh (h ++ [(fresh, m)]) (fresh + 1) := by
  refine ⟨?_, by omega⟩
  intro a ha
  exact lookupH_append_ne h fresh m a (by omega)

/-- In-place update at reference `r` leaves lookups of other references
unchanged. -/
lemma lookupH_setH_ne (h : Heap) (r : Nat) (m : GoMap) (a : Nat)
    (hne : a ≠ r) : lookupH (setH h r m) a = lookupH h a := by
  induction h with
  | nil => rfl
  | cons p ps ih =>
    by_cases hp : p.1 = r
    · have h1 : ¬ r = a := fun hk => hne hk.symm
      have h2 : ¬ p.1 = a := by rw [hp]; exact h1
      simp only [setH, List.map_cons, if_pos hp, lookupH] at ih ⊢
      rw [List.find?_cons_of_neg, List.find?_cons_of_neg]
      · exact ih
      · simp [h2]
      · simp [h1]
    · simp only [setH, List.map_cons, if_neg hp, lookupH] at ih ⊢
      by_cases hp2 : p.1 = a
      · simp [List.find?, hp2]
      · rw [List.find?_cons_of_neg, List.find?_cons_of_neg]
        · exact ih
        · simp [hp2]
        · simp [hp2]

/-- The in-place update step of the trimming code: frame-correct as long as
the updated reference is a fresh one. -/
lemma HeapFrame.set (h : Heap) (fresh : Nat) (r : Nat) (m : GoMap)
    (hr : fresh ≤ r) : HeapFrame h fresh (setH h r m) fresh := by
  refine ⟨?_, le_refl fresh⟩
  intro a ha
  exact lookupH_setH_ne h r m a (by omega)

/-- A reference bound in a heap whose keys are all below `fresh` is itself
below `fresh`. -/
lemma lookupH_isSome_lt {h : Heap} {fresh : Nat}
    (hw : heapLtB h fresh = true) {a : Nat}
    (ha : (lookupH h a).isSome = true) : a < fresh := by
  cases hf : h.find? (fun p => p.1 = a) with
  | none => rw [lookupH, hf] at ha; simp at ha
  | some p =>
    have hmem : p ∈ h := List.mem_of_find?_eq_some hf
    have hkey := List.find?_some hf
    simp only [decide_eq_true_eq] at hkey
    have := (List.all_eq_true.mp hw) p hmem
    simp only [decide_eq_true_eq] at this
    omega

/-- The copy helpers only allocate fresh references: every previously
allocated reference keeps its binding, the counter only grows, and the map
reference returned by `copyMap` is a new one. -/
lemma copy_frame : ∀ fuel : Nat,
    (∀ h fresh r,
      HeapFrame h fresh (copyMap fuel h fresh r).1 (copyMap fuel h fresh r).2.1
      ∧ fresh ≤ (copyMap fuel h fresh r).2.2)
    ∧ (∀ h fresh m,
      HeapFrame h fresh (copyEntries fuel h fresh m).1 (copyEntries fuel h fresh m).2.1)
    ∧ (∀ h fresh v,
      HeapFrame h fresh (copyVal fuel h fresh v).1 (copyVal fuel h fresh v).2.1)
    ∧ (∀ h fresh rs,
      HeapFrame h fresh (copyRefs fuel h fresh rs).1 (copyRefs fuel h fresh rs).2.1) := by
  intro fuel
  induction fuel with
  | zero =>
    refine ⟨?_, ?_, ?_, ?_⟩
    · intro h fresh r
      simp only [copyMap]
      exact ⟨HeapFrame.alloc h fresh [], le_refl fresh⟩
    · intro h fresh m
      cases m with
      | nil => simp only [copyEntries]; exact heapFrame_refl h fresh
      | cons e es => simp only [copyEntries]; exact heapFrame_refl h fresh
    · intro h fresh v
      cases v with
      | prim t => simp only [copyVal]; exact heapFrame_refl h fresh
      | ref r => simp only [copyVal]; exact heapFrame_refl h fresh
      | refs rs => simp only [copyVal]; exact heapFrame_refl h fresh
    · intro h fresh rs
      cases rs with
      | nil => simp only [copyRefs]; exact heapFrame_refl h fresh
      | cons r rest => simp only [copyRefs]; exact heapFrame_refl h fresh
  | succ fuel ih =>
    obtain ⟨ihM, ihE, ihV, ihR⟩ := ih
    refine ⟨?_, ?_, ?_, ?_⟩
    · intro h fresh r
      cases hl : lookupH h r with
      | none =>
        simp only [copyMap, hl]
        exact ⟨HeapFrame.alloc h fresh [], le_refl fresh⟩
      | some m =>
        simp only [copyMap, hl]
        have hE := ihE h fresh m
        exact ⟨HeapFrame.trans hE (HeapFrame.alloc _ _ _), hE.2⟩
    · intro h fresh m
      cases m with
      | nil => simp only [copyEntries]; exact heapFrame_refl h fresh
      | cons e es =>
        obtain ⟨k, v⟩ := e
        simp only [copyEntries]
        exact HeapFrame.trans (ihV h fresh v)
          (ihE (copyVal fuel h fresh v).1 (copyVal fuel h fresh v).2.1 es)
    · intro h fresh v
      cases v with
      | prim t => simp only [copyVal]; exact heapFrame_refl h fresh
      | ref r =>
        simp only [copyVal]
        exact (ihM h fresh r).1
      | refs rs =>
        simp only [copyVal]
        exact ihR h fresh rs
    · intro h fresh rs
      cases rs with
      | nil => simp only [copyRefs]; exact heapFrame_refl h fresh
      | cons r rest =>
        simp only [copyRefs]
        exact HeapFrame.trans (ihM h fresh r).1
          (ihR (copyMap fuel h fresh r).1 (copyMap fuel h fresh r).2.1 rest)

/-- The trimming helpers only mutate freshly copied maps: every reference
allocated before the call keeps its binding, the counter only grows, and the
root returned by `trimExplainAttributes` is a new reference. -/
lemma trim_frame : ∀ fuel : Nat,
    (∀ h fresh r,
      HeapFrame h fresh (trimExplainAttributes fuel h fresh r).1
        (trimExplainAttributes fuel h fresh r).2.1
      ∧ fresh ≤ (trimExplainAttributes fuel h fresh r).2.2)
    ∧ (∀ h fresh m,
      HeapFrame h fresh (trimEntries fuel h fresh m).1 (trimEntries fuel h fresh m).2.1)
    ∧ (∀ h fresh rs,
      HeapFrame h fresh (trimRefs fuel h fresh rs).1 (trimRefs fuel h fresh rs).2.1) := by
  intro fuel
  induction fuel with
  | zero =>
    refine ⟨?_, ?_, ?_⟩
    · intro h fresh r
      simp only [trimExplainAttributes, copyMap]
      exact ⟨HeapFrame.alloc h fresh [], le_refl fresh⟩
    · intro h fresh m
      cases m with
      | nil => simp only [trimEntries]; exact heapFrame_refl h fresh
      | cons e es => simp only [trimEntries]; exact heapFrame_refl h fresh
    · intro h fresh rs
      cases rs with
      | nil => simp only [trimRefs]; exact heapFrame_refl h fresh
      | cons r rest => simp only [trimRefs]; exact heapFrame_refl h fresh
  | succ fuel ih =>
    obtain ⟨ihT, ihE, ihR⟩ := ih
    refine ⟨?_, ?_, ?_⟩
    · intro h fresh r
      have hM := (copy_frame (fuel + 1)).1 h fresh r
      cases hl : lookupH (copyMap (fuel + 1) h fresh r).1
          (copyMap (fuel + 1) h fresh r).2.2 with
      | none =>
        simp only [trimExplainAttributes, hl]
        exact ⟨hM.1, hM.2⟩
      | some m =>
        simp only [trimExplainAttributes, hl]
        have hE := ihE (copyMap (fuel + 1) h fresh r).1
          (copyMap (fuel + 1) h fresh r).2.1 m
        have hroot := hM.2
        refine ⟨⟨?_, ?_⟩, hroot⟩
        · intro a ha
          rw [lookupH_setH_ne _ _ _ a (by omega)]
          exact (HeapFrame.trans hM.1 hE).1 a ha
        · exact le_trans hM.1.2 hE.2
    · intro h fresh m
      cases m with
      | nil => simp only [trimEntries]; exact heapFrame_refl h fresh
      | cons e es =>
        obtain ⟨k, v⟩ := e
        by_cases hk : isPlanNode k
        · cases v with
          | prim t =>
            rw [trimEntries.eq_def]
            simp [hk]
            exact ihE h fresh es
          | ref r =>
            rw [trimEntries.eq_def]
            simp [hk]
            exact HeapFrame.trans (ihT h fresh r).1
              (ihE (trimExplainAttributes fuel h fresh r).1
                (trimExplainAttributes fuel h fresh r).2.1 es)
          | refs rs =>
            rw [trimEntries.eq_def]
            simp [hk]
            exact HeapFrame.trans (ihR h fresh rs)
              (ihE (trimRefs fuel h fresh rs).1 (trimRefs fuel h fresh rs).2.1 es)
        · have hk2 : isPlanNode k = false := by
            cases hkv : isPlanNode k with
            | false => rfl
            | true => exact absurd hkv hk
          rw [trimEntries.eq_def]
          simp [hk2]
          exact ihE h fresh es
    · intro h fresh rs
      cases rs with
      | nil => simp only [trimRefs]; exact heapFrame_refl h fresh
      | cons r rest =>
        simp only [trimRefs]
        exact HeapFrame.trans (ihT h fresh r).1
          (ihR (trimExplainAttributes fuel h fresh r).1
            (trimExplainAttributes fuel h fresh r).2.1 rest)

/-- Frame-correctness of `trimSubNodes` as well: it mutates only the fresh copy
it makes. -/
lemma trimSubNodes_frame (fuel : Nat) (h : Heap) (fresh : Nat) (g : GoVal) :
    HeapFrame h fresh (trimSubNodes fuel h fresh g).1
      (trimSubNodes fuel h fresh g).2.1 := by
  cases g with
  | prim t => exact heapFrame_refl h fresh
  | refs rs => exact heapFrame_refl h fresh
  | ref r =>
    have hM := (copy_frame fuel).1 h fresh r
    cases hl : lookupH (copyMap fuel h fresh r).1 (copyMap fuel h fresh r).2.2 with
    | none =>
      simp only [trimSubNodes, hl]
      exact hM.1
    | some m =>
      simp only [trimSubNodes, hl]
      have hroot := hM.2
      refine ⟨?_, hM.1.2⟩
      intro a ha
      rw [lookupH_setH_ne _ _ _ a (by omega)]
      exact hM.1.1 a ha

/-- C10: for every explain-graph map, `trimExplainAttributes` and
`trimSubNodes` return a trimmed copy rooted at a new reference and leave the
input map — including every nested map allocated in the heap — unchanged. -/
theorem trim_helpers_no_mutation (fuel : Nat) (h : Heap) (fresh : Nat)
    (r : Nat) (g : GoVal) (hw : heapLtB h fresh = true) :
    (∀ a, (lookupH h a).isSome = true →
      lookupH (trimExplainAttributes fuel h fresh r).1 a = lookupH h a)
    ∧ (∀ a, (lookupH h a).isSome = true →
      lookupH (trimSubNodes fuel h fresh g).1 a = lookupH h a)
    ∧ fresh ≤ (trimExplainAttributes fuel h fresh r).2.2
    ∧ (∀ r2, g = GoVal.ref r2 →
      ∃ r3, (trimSubNodes fuel h fresh g).2.2 = GoVal.ref r3 ∧ fresh ≤ r3) := by
  refine ⟨?_, ?_, ((trim_frame fuel).1 h fresh r).2, ?_⟩
  · intro a ha
    exact ((trim_frame fuel).1 h fresh r).1.1 a (lookupH_isSome_lt hw ha)
  · intro a ha
    exact (trimSubNodes_frame fuel h fresh g).1 a (lookupH_isSome_lt hw ha)
  · intro r2 hg
    subst hg
    have hM := (copy_frame fuel).1 h fresh r2
    cases hl : lookupH (copyMap fuel h fresh r2).1 (copyMap fuel h fresh r2).2.2 with
    | none =>
      simp only [trimSubNodes, hl]
      exact ⟨(copyMap fuel h fresh r2).2.2, rfl, hM.2⟩
    | some m =>
      simp only [trimSubNodes, hl]
      exact ⟨(copyMap fuel h fresh r2).2.2, rfl, hM.2⟩

/-- C10 witness: trimming a concrete three-map explain graph leaves all
three input maps bound exactly as before and returns a fresh root. -/
theorem trim_helpers_no_mutation_witness :
    lookupH (trimExplainAttributes 10
        [(0, [("explain", GoVal.ref 1), ("collectionID", GoVal.prim 3)]),
          (1, [("scanNode", GoVal.ref 2)]), (2, [("filter", GoVal.prim 7)])]
        3 0).1 0 =
      some [("explain", GoVal.ref 1), ("collectionID", GoVal.prim 3)]
    ∧ lookupH (trimSubNodes 10
        [(0, [("explain", GoVal.ref 1), ("collectionID", GoVal.prim 3)]),
          (1, [("scanNode", GoVal.ref 2)]), (2, [("filter", GoVal.prim 7)])]
        3 (GoVal.ref 0)).1 1 =
      some [("scanNode", GoVal.ref 2)]
    ∧ 3 ≤ (trimExplainAttributes 10
        [(0, [("explain", GoVal.ref 1), ("collectionID", GoVal.prim 3)]),
          (1, [("scanNode", GoVal.ref 2)]), (2, [("filter", GoVal.prim 7)])]
        3 0).2.2 := by
  have h := trim_helpers_no_mutation 10
    [(0, [("explain", GoVal.ref 1), ("collectionID", GoVal.prim 3)]),
      (1, [("scanNode", GoVal.ref 2)]), (2, [("filter", GoVal.prim 7)])]
    3 0 (GoVal.ref 0) (by decide)
  refine ⟨?_, ?_, h.2.2.1⟩
  · rw [h.1 0 (by decide)]
    decide
  · rw [h.2.1 1 (by decide)]
    decide

end DefraDB
